import Mathlib

/-!
Verification of the webpage Q&A pipeline of this repository (src/main.py).

Text is modelled as `List Char`.  The streamlit/requests/OpenAI/FAISS
collaborators are modelled as explicit environment parameters; the control
flow of `src/main.py` (URL collection, two-stage fetch with fallback,
chunking, index build and persistence, query handling) is translated
directly from the source.
-/

namespace FinanceBot

/-- Whitespace test of python str.strip (ASCII whitespace characters). -/
def isPySpace (c : Char) : Bool :=
  c == ' ' || c == '\t' || c == '\n' || c == '\r' || c == '\x0b' || c == '\x0c'

/-- Model of python str.strip(): drop whitespace from both ends. -/
def pyStrip (l : List Char) : List Char :=
  ((l.dropWhile isPySpace).reverse.dropWhile isPySpace).reverse

/-- Shorthand turning a string literal into the `List Char` text model. -/
def str (s : String) : List Char := s.data

/-- Chunk size configured at src/main.py line 103. -/
def CHUNK_SIZE : Nat := 1000

/-- Chunk overlap configured at src/main.py line 104. -/
def CHUNK_OVERLAP : Nat := 100

/-- Separator priority list configured at src/main.py line 102. -/
def SEPARATORS : List (List Char) := [str "\n\n", str "\n", str ".", str ","]

/-- Modelled from the spec: the chunker of src/main.py is the third-party
RecursiveCharacterTextSplitter, whose code is not part of this repository.
This is the literal-separator split (python re.split on an escaped literal
pattern, leftmost and non-overlapping), written with explicit fuel so that
it computes by kernel reduction.  `splitGoF sep fuel l` splits `l` at each
leftmost occurrence of `sep`, consuming the separator. -/
def splitGoF (sep : List Char) : Nat → List Char → List (List Char)
  | _, [] => [[]]
  | 0, c :: rest => [c :: rest]
  | fuel + 1, c :: rest =>
    if sep.isPrefixOf (c :: rest) then
      [] :: splitGoF sep fuel (rest.drop (sep.length - 1))
    else
      let r := splitGoF sep fuel rest
      (c :: r.headD []) :: r.tail

/-- Split on a literal separator (python re.split with an escaped pattern). -/
def splitGo (sep text : List Char) : List (List Char) :=
  splitGoF sep text.length text

/-- Modelled from the spec: the splitter helper that splits while keeping
separators (keep_separator mode of the third-party splitter): the separator
is attached to the front of the fragment that follows it, and empty
fragments are discarded. -/
def splitKeepSep (sep text : List Char) : List (List Char) :=
  let parts := splitGo sep text
  ((parts.headD []) :: parts.tail.map (fun q => sep ++ q)).filter (fun s => !s.isEmpty)

/-- Substring occurrence test (python re.search with an escaped literal). -/
def containsSeq (sep : List Char) : List Char → Bool
  | [] => sep.isEmpty
  | c :: rest => sep.isPrefixOf (c :: rest) || containsSeq sep rest

/-- Modelled from the spec: separator selection of the third-party recursive
splitter: the first separator of the priority list occurring in the text is
chosen together with the remaining lower-priority separators; if none
occurs, the last separator is chosen with no remaining separators. -/
def selectSep : List (List Char) → List Char → List Char × List (List Char)
  | [], _ => ([], [])
  | s :: rest, text =>
    if s = [] then ([], [])
    else if containsSeq s text then (s, rest)
    else if rest = [] then (s, [])
    else selectSep rest text

/-- Sum of the lengths of a list of texts. -/
def sumLen (l : List (List Char)) : Nat := (l.map List.length).sum

/-- Modelled from the spec: joining a window of splits into one chunk
(the third-party splitter joins with the empty separator in keep_separator
mode and strips surrounding whitespace; an empty result is dropped). -/
def joinDocs (cur : List (List Char)) : Option (List Char) :=
  let text := pyStrip cur.flatten
  if text.isEmpty then none else some text

/-- Modelled from the spec: the overlap window reduction of the third-party
splitter: after emitting a chunk, leading splits are dropped while the
running total exceeds the overlap or the next split does not fit. -/
def popWhile (len : Nat) : List (List Char) → Nat → List (List Char) × Nat
  | [], total => ([], total)
  | c :: restCur, total =>
    if total > CHUNK_OVERLAP ∨ (total + len > CHUNK_SIZE ∧ total > 0) then
      popWhile len restCur (total - c.length)
    else (c :: restCur, total)

/-- Modelled from the spec: the merge loop of the third-party splitter,
accumulating splits into chunks bounded by the chunk size, with the
overlap window retained between consecutive chunks. -/
def mergeGo : List (List Char) → List (List Char) → List (List Char) → Nat → List (List Char)
  | [], docs, cur, _ => docs ++ (joinDocs cur).toList
  | d :: rest, docs, cur, total =>
    if total + d.length > CHUNK_SIZE then
      if cur.isEmpty then mergeGo rest docs (cur ++ [d]) (total + d.length)
      else
        let docs1 := docs ++ (joinDocs cur).toList
        let p := popWhile d.length cur total
        mergeGo rest docs1 (p.1 ++ [d]) (p.2 + d.length)
    else mergeGo rest docs (cur ++ [d]) (total + d.length)

/-- Modelled from the spec: merging a run of small splits into chunks. -/
def mergeSplits (splits : List (List Char)) : List (List Char) :=
  mergeGo splits [] [] 0

/-- Modelled from the spec: the per-level loop of the recursive splitter:
splits below the chunk size are accumulated and merged; an oversized split
is recursed into with the lower-priority separators, or emitted as is when
no lower-priority separator remains. -/
def processSplits (recurse : List Char → List (List Char)) (noNew : Bool) :
    List (List Char) → List (List Char) → List (List Char) → List (List Char)
  | [], final, good => final ++ (if good.isEmpty then [] else mergeSplits good)
  | s :: rest, final, good =>
    if s.length < CHUNK_SIZE then processSplits recurse noNew rest final (good ++ [s])
    else
      let final1 := if good.isEmpty then final else final ++ mergeSplits good
      let final2 := if noNew then final1 ++ [s] else final1 ++ recurse s
      processSplits recurse noNew rest final2 []

/-- Modelled from the spec: one recursion level of the third-party recursive
splitter, with fuel bounding the recursion depth by the length of the
separator priority list. -/
def splitTextGo (fuel : Nat) : List (List Char) → List Char → List (List Char) :=
  match fuel with
  | 0 => fun _ text => [text]
  | fuel + 1 => fun seps text =>
    let sel := selectSep seps text
    processSplits (splitTextGo fuel sel.2) sel.2.isEmpty (splitKeepSep sel.1 text) [] []

/-- Modelled from the spec: split_text of the splitter configured at
src/main.py lines 101-105. -/
def splitText (text : List Char) : List (List Char) :=
  splitTextGo SEPARATORS.length SEPARATORS text

/-- A document of the pipeline: page content plus its source URL
(langchain Document with metadata source, src/main.py line 57). -/
structure Document where
  page_content : List Char
  source : List Char
deriving DecidableEq

/-- Modelled from the spec: split_documents of the third-party splitter:
every document is split with split_text and each produced chunk carries a
copy of the parent document metadata (its source URL). -/
def splitDocuments (docs : List Document) : List Document :=
  docs.flatMap (fun d => (splitText d.page_content).map (fun c => Document.mk c d.source))

/-- An entry of the persisted FAISS index: chunk content plus its source
metadata (the embedding vector is abstracted away). -/
structure IndexEntry where
  content : List Char
  source : List Char
deriving DecidableEq

/-- Modelled from the spec: FAISS.from_documents keeps every chunk together
with its source metadata in the index (src/main.py line 112). -/
def buildIndex (chunks : List Document) : List IndexEntry :=
  chunks.map (fun c => IndexEntry.mk c.page_content c.source)

/-- Outcome of the primary UnstructuredURLLoader.load() call
(src/main.py lines 85-88): a document list, or a raised exception. -/
inductive LoaderResult where
  | ok (docs : List Document)
  | exc
deriving DecidableEq

/-- An HTTP response as seen by the fallback loader: status code and the
texts of the paragraph elements of the parsed body. -/
structure PageResponse where
  status : Nat
  paragraphs : List (List Char)
deriving DecidableEq

/-- Outcome of requests.get plus parsing for one URL: a response, or an
exception raised anywhere inside the per-URL try block. -/
inductive FetchOutcome where
  | page (r : PageResponse)
  | raise
deriving DecidableEq

/-- User-visible events and side effects of the Process URLs action,
in the order the source emits them. -/
inductive Event where
  | loadingInfo
  | primaryWarning
  | fallbackInfo
  | fallbackGet (url : List Char)
  | fallbackError (url : List Char)
  | fallbackWarnStatus (url : List Char) (status : Nat)
  | fallbackWarnNoText (url : List Char)
  | fallbackSuccess (url : List Char)
  | loadedCount (n : Nat)
  | errorNoContent
  | errorNoUrls
  | splitCount (n : Nat)
  | embeddingInfo
  | embedCall
  | savedIndex
  | buildRaised
deriving DecidableEq

/-- External world of the Process URLs action: the primary loader outcome,
the per-URL fetch outcomes, and whether embedding and index construction
succeed. -/
structure Env where
  primary : LoaderResult
  fetch : List Char → FetchOutcome
  embedOk : Bool

/-- One iteration of the fallback loader loop (src/main.py lines 47-62):
GET the URL; on a raised exception report an error for that URL; on a
non-200 status warn and skip; otherwise join the paragraph texts with
spaces and emit one document when the stripped text is nonempty. -/
def fallbackStep (fetch : List Char → FetchOutcome) (url : List Char) :
    List Document × List Event :=
  match fetch url with
  | FetchOutcome.raise => ([], [Event.fallbackGet url, Event.fallbackError url])
  | FetchOutcome.page r =>
    if r.status ≠ 200 then ([], [Event.fallbackGet url, Event.fallbackWarnStatus url r.status])
    else
      let text := List.intercalate [' '] r.paragraphs
      if pyStrip text = [] then ([], [Event.fallbackGet url, Event.fallbackWarnNoText url])
      else ([Document.mk text url], [Event.fallbackGet url, Event.fallbackSuccess url])

/-- fallback_bs4_loader of src/main.py lines 34-63: process every URL in
order, concatenating the produced documents and status events. -/
def fallback_bs4_loader (fetch : List Char → FetchOutcome) :
    List (List Char) → List Document × List Event
  | [] => ([], [])
  | u :: rest =>
    let s := fallbackStep fetch u
    let r := fallback_bs4_loader fetch rest
    (s.1 ++ r.1, s.2 ++ r.2)

/-- Step 1 of the handler (src/main.py lines 74-88): the primary loader
result, treating a raised exception as zero documents plus a warning. -/
def primaryData : LoaderResult → List Document × List Event
  | LoaderResult.ok docs => (docs, [])
  | LoaderResult.exc => ([], [Event.primaryWarning])

/-- The documents available after the two fetch stages (src/main.py lines
74-93): primary result, or the fallback result when the primary result is
empty. -/
def loadedData (env : Env) (urls : List (List Char)) : List Document :=
  if (primaryData env.primary).1 = [] then (fallback_bs4_loader env.fetch urls).1
  else (primaryData env.primary).1

/-- The events emitted by the two fetch stages, in source order. -/
def loadEvents (env : Env) (urls : List (List Char)) : List Event :=
  (primaryData env.primary).2 ++
    (if (primaryData env.primary).1 = [] then
      Event.fallbackInfo :: (fallback_bs4_loader env.fetch urls).2
    else [])

/-- The Process URLs handler (src/main.py lines 67-116), as a function of
the environment, the collected URLs, and the persisted index state.
Returns the persisted index state after the action and the event trace. -/
def processUrls (env : Env) (urls : List (List Char))
    (fs : Option (List IndexEntry)) : Option (List IndexEntry) × List Event :=
  if urls = [] then (fs, [Event.errorNoUrls])
  else
    let data := loadedData env urls
    let evs := Event.loadingInfo :: loadEvents env urls ++ [Event.loadedCount data.length]
    if data = [] then (fs, evs ++ [Event.errorNoContent])
    else
      let chunks := splitDocuments data
      let evs := evs ++ [Event.splitCount chunks.length, Event.embeddingInfo, Event.embedCall]
      if env.embedOk then (some (buildIndex chunks), evs ++ [Event.savedIndex])
      else (fs, evs ++ [Event.buildRaised])

/-- Sidebar URL collection (src/main.py lines 24-28): each input field is
stripped, and only nonempty stripped values are kept. -/
def collectUrls (inputs : List (List Char)) : List (List Char) :=
  (inputs.map pyStrip).filter (fun u => !u.isEmpty)

/-- The URLs for which the fallback fetcher issued a GET, in order. -/
def fallbackGets (evs : List Event) : List (List Char) :=
  evs.filterMap (fun e => match e with | Event.fallbackGet u => some u | _ => none)

/-- Does an event record that the chunking step ran? -/
def isSplitEvent : Event → Bool
  | Event.splitCount _ => true
  | _ => false

/-- Outcome of the retrieval chain call (src/main.py line 141): an answer
with sources, or a raised exception inside the chain or LLM call. -/
inductive ChainOutcome where
  | answer (a : List Char) (sources : List Char)
  | raise
deriving DecidableEq

/-- User-visible events of the question handler. -/
inductive QEvent where
  | errorNotFound (msg : String)
  | searching
  | loadIndex
  | runChain
  | wroteAnswer (a sources : List Char)
  | crashed
deriving DecidableEq

/-- The question handler (src/main.py lines 121-143), as a function of the
persisted index state, the chain outcome, and the query text.  Returns the
persisted index state after the action and the event trace. -/
def handleQuery (fs : Option (List IndexEntry)) (chain : ChainOutcome)
    (query : List Char) : Option (List IndexEntry) × List QEvent :=
  if query = [] then (fs, [])
  else
    match fs with
    | none => (fs, [QEvent.errorNotFound "FAISS index not found. Please process URLs first."])
    | some _ =>
      match chain with
      | ChainOutcome.answer a s =>
        (fs, [QEvent.searching, QEvent.loadIndex, QEvent.runChain, QEvent.wroteAnswer a s])
      | ChainOutcome.raise =>
        (fs, [QEvent.searching, QEvent.loadIndex, QEvent.runChain, QEvent.crashed])

/-- Is an event one of the per-URL status messages of the fallback loader? -/
def isFallbackEvent : Event → Bool
  | Event.fallbackGet _ => true
  | Event.fallbackError _ => true
  | Event.fallbackWarnStatus _ _ => true
  | Event.fallbackWarnNoText _ => true
  | Event.fallbackSuccess _ => true
  | _ => false

/-- Concrete fixture: a one-chunk document. -/
def docA : Document := Document.mk (str "ab") (str "u")

/-- Concrete fixture: every GET raises. -/
def fetchFail : List Char → FetchOutcome := fun _ => FetchOutcome.raise

/-- Concrete fixture: every GET returns a 200 page with two paragraphs. -/
def fetchHello : List Char → FetchOutcome :=
  fun _ => FetchOutcome.page (PageResponse.mk 200 [str "Hello.", str "World."])

/-- Concrete fixture: outcomes differing per URL. -/
def fetchMixed (u : List Char) : FetchOutcome :=
  if u = str "bad" then FetchOutcome.raise
  else if u = str "s404" then FetchOutcome.page (PageResponse.mk 404 [str "x"])
  else if u = str "blank" then FetchOutcome.page (PageResponse.mk 200 [str "  "])
  else FetchOutcome.page (PageResponse.mk 200 [str "Hello.", str "World."])

/-- Concrete fixture: primary loader succeeds with one document. -/
def envPrimaryOk : Env := Env.mk (LoaderResult.ok [docA]) fetchFail true

/-- Concrete fixture: primary loader raises, fallback succeeds. -/
def envFallback : Env := Env.mk LoaderResult.exc fetchHello true

/-- Concrete fixture: both fetch stages fail everywhere. -/
def envAllFail : Env := Env.mk LoaderResult.exc fetchFail true

/-- Concrete fixture: fetch succeeds but the embedding call raises. -/
def envEmbedFail : Env := Env.mk (LoaderResult.ok [docA]) fetchFail false

/-- Every occurrence of sep inside text sits at a position below the
separator's own length, i.e. only at the very start of text; in
particular no occurrence provides a usable split point. -/
def confined (sep text : List Char) : Prop :=
  ∀ i, sep <+: text.drop i → i < sep.length

/-- Every separator no longer in the remaining priority list seps occurs
in text only at its very start. -/
def sepConfined (seps : List (List Char)) (text : List Char) : Prop :=
  ∀ sep ∈ SEPARATORS, sep ∉ seps → confined sep text

/-- A produced chunk is within the configured chunk size, or no separator
occurrence inside it provides a split point (every occurrence of every
separator sits at the chunk's very start). -/
def chunkOK (c : List Char) : Prop :=
  c.length ≤ CHUNK_SIZE ∨ sepConfined [] c

end FinanceBot

namespace FinanceBot

/-- Stripping never lengthens a text. -/
theorem pyStrip_length_le (l : List Char) : (pyStrip l).length ≤ l.length := by
  have h1 : ((l.dropWhile isPySpace).reverse.dropWhile isPySpace).length ≤
      (l.dropWhile isPySpace).reverse.length :=
    List.Sublist.length_le (List.dropWhile_sublist isPySpace)
  have h2 : (l.dropWhile isPySpace).length ≤ l.length :=
    List.Sublist.length_le (List.dropWhile_sublist isPySpace)
  simpa [pyStrip] using le_trans h1 (by simpa using h2)

/-- Bridge between the Bool prefix test and the prefix order. -/
theorem isPre_iff (l m : List Char) : l.isPrefixOf m = true ↔ l <+: m :=
  List.isPrefixOf_iff_prefix

/-- An infix occurrence is a prefix of some suffix. -/
theorem inf_iff_drop (sep l : List Char) : sep <:+: l ↔ ∃ i, sep <+: l.drop i := by
  constructor
  · rintro ⟨s, t, rfl⟩
    refine ⟨s.length, ?_⟩
    rw [List.append_assoc, List.drop_left]
    exact ⟨t, rfl⟩
  · rintro ⟨i, t, ht⟩
    refine ⟨l.take i, t, ?_⟩
    rw [List.append_assoc, ht, List.take_append_drop]

/-- The substring test agrees with the infix order. -/
theorem containsSeq_iff (sep : List Char) :
    ∀ l, containsSeq sep l = true ↔ sep <:+: l := by
  intro l
  induction l with
  | nil =>
    simp only [containsSeq, List.isEmpty_iff]
    constructor
    · rintro rfl
      exact ⟨[], [], rfl⟩
    · rintro ⟨s, t, h⟩
      rcases List.append_eq_nil.mp h with ⟨h1, -⟩
      exact (List.append_eq_nil.mp h1).2
  | cons c rest ih =>
    simp only [containsSeq, Bool.or_eq_true, isPre_iff, ih]
    constructor
    · rintro (h | h)
      · exact h.isInfix
      · exact h.trans (List.IsSuffix.isInfix ⟨[c], rfl⟩)
    · intro h
      obtain ⟨i, hp⟩ := (inf_iff_drop sep (c :: rest)).mp h
      cases i with
      | zero => exact Or.inl hp
      | succ j =>
        rw [List.drop_succ_cons] at hp
        exact Or.inr ((inf_iff_drop sep rest).mpr ⟨j, hp⟩)

/-- A nonempty separator is not an infix of the empty text. -/
theorem not_inf_nil {sep : List Char} (hsep : sep ≠ []) : ¬ sep <:+: [] := by
  rintro ⟨s, t, h⟩
  rcases List.append_eq_nil.mp h with ⟨h1, -⟩
  exact hsep (List.append_eq_nil.mp h1).2

/-- For a nonempty list, headD with default is a member. -/
theorem headD_mem {l : List (List Char)} (h : l ≠ []) : l.headD [] ∈ l := by
  cases l with
  | nil => exact absurd rfl h
  | cons a as => simp

/-- The literal splitter never returns an empty list of parts. -/
theorem splitGoF_ne_nil (sep : List Char) (fuel : Nat) (l : List Char) :
    splitGoF sep fuel l ≠ [] := by
  cases fuel with
  | zero => cases l <;> simp [splitGoF]
  | succ fuel =>
    cases l with
    | nil => simp [splitGoF]
    | cons c rest =>
      by_cases h : sep.isPrefixOf (c :: rest) <;> simp [splitGoF, h]

/-- The first part produced by the literal splitter is a prefix of the
input. -/
theorem splitGoF_headD_pre (sep : List Char) :
    ∀ fuel l, (splitGoF sep fuel l).headD [] <+: l := by
  intro fuel
  induction fuel with
  | zero =>
    intro l
    cases l with
    | nil => simp [splitGoF]
    | cons c rest => simp [splitGoF]
  | succ fuel ih =>
    intro l
    cases l with
    | nil => simp [splitGoF]
    | cons c rest =>
      by_cases h : sep.isPrefixOf (c :: rest)
      · simp [splitGoF, h]
      · simp only [splitGoF, if_neg h, List.headD_cons]
        exact List.cons_prefix_cons.mpr ⟨rfl, ih rest⟩

/-- When the separator is a prefix, the input decomposes as the separator
followed by the rest of the scan. -/
theorem pre_drop_eq (sep : List Char) (hsep : sep ≠ []) (c : Char) (rest : List Char)
    (h : sep.isPrefixOf (c :: rest) = true) :
    c :: rest = sep ++ rest.drop (sep.length - 1) := by
  obtain ⟨t, ht⟩ := (isPre_iff _ _).mp h
  have hdrop : (c :: rest).drop sep.length = t := by rw [← ht, List.drop_left]
  obtain ⟨k, hk⟩ : ∃ k, sep.length = k + 1 := by
    cases sep with
    | nil => exact absurd rfl hsep
    | cons a b => exact ⟨b.length, by simp⟩
  have hre : rest.drop (sep.length - 1) = t := by
    rw [hk] at hdrop ⊢
    simpa [List.drop_succ_cons] using hdrop
  rw [hre]
  exact ht.symm

/-- No part produced by the literal splitter contains the separator. -/
theorem splitGoF_parts_free (sep : List Char) (hsep : sep ≠ []) :
    ∀ fuel l, l.length ≤ fuel → ∀ p ∈ splitGoF sep fuel l, ¬ sep <:+: p := by
  intro fuel
  induction fuel with
  | zero =>
    intro l hl p hp
    cases l with
    | nil =>
      simp [splitGoF] at hp
      subst hp
      exact not_inf_nil hsep
    | cons c rest => simp at hl
  | succ fuel ih =>
    intro l hl p hp
    cases l with
    | nil =>
      simp [splitGoF] at hp
      subst hp
      exact not_inf_nil hsep
    | cons c rest =>
      have hrl : rest.length ≤ fuel := by simpa using hl
      by_cases h : sep.isPrefixOf (c :: rest)
      · simp only [splitGoF, if_pos h] at hp
        rcases List.mem_cons.mp hp with rfl | hp
        · exact not_inf_nil hsep
        · refine ih (rest.drop (sep.length - 1)) ?_ p hp
          rw [List.length_drop]
          omega
      · simp only [splitGoF, if_neg h] at hp
        rcases List.mem_cons.mp hp with rfl | hp
        · intro hinf
          obtain ⟨i, hpre⟩ := (inf_iff_drop _ _).mp hinf
          cases i with
          | zero =>
            have hh := splitGoF_headD_pre sep fuel rest
            simp only [List.drop_zero] at hpre
            have : sep <+: c :: rest := hpre.trans (List.cons_prefix_cons.mpr ⟨rfl, hh⟩)
            exact h ((isPre_iff _ _).mpr this)
          | succ j =>
            rw [List.drop_succ_cons] at hpre
            have hmem : (splitGoF sep fuel rest).headD [] ∈ splitGoF sep fuel rest :=
              headD_mem (splitGoF_ne_nil sep fuel rest)
            exact ih rest hrl _ hmem ((inf_iff_drop _ _).mpr ⟨j, hpre⟩)
        · exact ih rest hrl p (List.mem_of_mem_tail hp)

/-- Every part produced by the literal splitter is an infix of the input. -/
theorem splitGoF_mem_inf (sep : List Char) (hsep : sep ≠ []) :
    ∀ fuel l, ∀ p ∈ splitGoF sep fuel l, p <:+: l := by
  intro fuel
  induction fuel with
  | zero =>
    intro l p hp
    cases l with
    | nil =>
      simp [splitGoF] at hp
      subst hp
      exact ⟨[], [], rfl⟩
    | cons c rest =>
      simp [splitGoF] at hp
      subst hp
      exact ⟨[], [], by simp⟩
  | succ fuel ih =>
    intro l p hp
    cases l with
    | nil =>
      simp [splitGoF] at hp
      subst hp
      exact ⟨[], [], rfl⟩
    | cons c rest =>
      by_cases h : sep.isPrefixOf (c :: rest)
      · simp only [splitGoF, if_pos h] at hp
        rcases List.mem_cons.mp hp with rfl | hp
        · exact ⟨[], c :: rest, by simp⟩
        · have hkey := pre_drop_eq sep hsep c rest h
          have hsuf : rest.drop (sep.length - 1) <:+ c :: rest := ⟨sep, hkey.symm⟩
          exact (ih _ p hp).trans hsuf.isInfix
      · simp only [splitGoF, if_neg h] at hp
        rcases List.mem_cons.mp hp with rfl | hp
        · exact (List.cons_prefix_cons.mpr ⟨rfl, splitGoF_headD_pre sep fuel rest⟩).isInfix
        · exact ((ih rest p (List.mem_of_mem_tail hp)).trans
            (List.IsSuffix.isInfix ⟨[c], rfl⟩))

/-- Every later part, with the separator re-attached in front, is an infix
of the input. -/
theorem splitGoF_tail_kept_inf (sep : List Char) (hsep : sep ≠ []) :
    ∀ fuel l, ∀ p ∈ (splitGoF sep fuel l).tail, sep ++ p <:+: l := by
  intro fuel
  induction fuel with
  | zero =>
    intro l p hp
    cases l with
    | nil => simp [splitGoF] at hp
    | cons c rest => simp [splitGoF] at hp
  | succ fuel ih =>
    intro l p hp
    cases l with
    | nil => simp [splitGoF] at hp
    | cons c rest =>
      by_cases h : sep.isPrefixOf (c :: rest)
      · simp only [splitGoF, if_pos h, List.tail_cons] at hp
        have hkey := pre_drop_eq sep hsep c rest h
        cases hr : splitGoF sep fuel (rest.drop (sep.length - 1)) with
        | nil => exact absurd hr (splitGoF_ne_nil _ _ _)
        | cons a as =>
          rw [hr] at hp
          rcases List.mem_cons.mp hp with rfl | hp
          · have ha : p <+: rest.drop (sep.length - 1) := by
              have hh := splitGoF_headD_pre sep fuel (rest.drop (sep.length - 1))
              rwa [hr, List.headD_cons] at hh
            obtain ⟨t, ht⟩ := ha
            refine ⟨[], t, ?_⟩
            simp only [List.nil_append]
            rw [List.append_assoc, ht]
            exact hkey.symm
          · have hp2 : p ∈ (splitGoF sep fuel (rest.drop (sep.length - 1))).tail := by
              rw [hr]
              exact hp
            exact (ih _ p hp2).trans (List.IsSuffix.isInfix ⟨sep, hkey.symm⟩)
      · simp only [splitGoF, if_neg h, List.tail_cons] at hp
        exact (ih rest p hp).trans (List.IsSuffix.isInfix ⟨[c], rfl⟩)

/-- Specializations of the splitter lemmas to splitGo. -/
theorem splitGo_parts_free (sep : List Char) (hsep : sep ≠ []) (text : List Char) :
    ∀ p ∈ splitGo sep text, ¬ sep <:+: p :=
  fun p hp => splitGoF_parts_free sep hsep text.length text le_rfl p hp

/-- Every splitGo part is an infix of the input. -/
theorem splitGo_mem_inf (sep : List Char) (hsep : sep ≠ []) (text : List Char) :
    ∀ p ∈ splitGo sep text, p <:+: text :=
  fun p hp => splitGoF_mem_inf sep hsep text.length text p hp

/-- Every later splitGo part with the separator re-attached is an infix. -/
theorem splitGo_tail_kept_inf (sep : List Char) (hsep : sep ≠ []) (text : List Char) :
    ∀ p ∈ (splitGo sep text).tail, sep ++ p <:+: text :=
  fun p hp => splitGoF_tail_kept_inf sep hsep text.length text p hp

/-- Membership in the keep-separator split: a fragment is a raw part or a
later part with the separator attached in front. -/
theorem splitKeepSep_cases (sep text s : List Char) (hs : s ∈ splitKeepSep sep text) :
    s ∈ splitGo sep text ∨ ∃ p ∈ (splitGo sep text).tail, s = sep ++ p := by
  rw [splitKeepSep] at hs
  have hs2 := (List.mem_filter.mp hs).1
  rcases List.mem_cons.mp hs2 with heq | hmem
  · left
    rw [heq]
    exact headD_mem (splitGoF_ne_nil sep text.length text)
  · right
    obtain ⟨q, hq, hql⟩ := List.mem_map.mp hmem
    exact ⟨q, hq, hql.symm⟩

/-- Separator selection splits the priority list into skipped separators,
none of which occurs in the text, the selected separator, and the
remaining lower-priority separators. -/
theorem selectSep_spec (text : List Char) :
    ∀ seps, seps ≠ [] → (∀ s ∈ seps, s ≠ []) →
    ∃ pre, seps = pre ++ (selectSep seps text).1 :: (selectSep seps text).2 ∧
      ∀ σ ∈ pre, ¬ σ <:+: text := by
  intro seps
  induction seps with
  | nil => intro h; exact absurd rfl h
  | cons s rest ih =>
    intro _ hne
    have hs : s ≠ [] := hne s (by simp)
    by_cases hc : containsSeq s text = true
    · refine ⟨[], ?_, by simp⟩
      simp [selectSep, hs, hc]
    · by_cases hr : rest = []
      · refine ⟨[], ?_, by simp⟩
        simp [selectSep, hs, hc, hr]
      · have heq : selectSep (s :: rest) text = selectSep rest text := by
          simp [selectSep, hs, hc, hr]
        obtain ⟨pre, hpre, hocc⟩ := ih hr (fun x hx => hne x (List.mem_cons_of_mem s hx))
        refine ⟨s :: pre, ?_, ?_⟩
        · rw [heq, List.cons_append, ← hpre]
        · intro σ hσ
          rcases List.mem_cons.mp hσ with rfl | hσ2
          · exact fun hinf => hc ((containsSeq_iff σ text).mpr hinf)
          · exact hocc σ hσ2

/-- A separator that does not occur at all is confined. -/
theorem confined_of_not_inf {sep text : List Char} (h : ¬ sep <:+: text) :
    confined sep text := by
  intro i hp
  exact absurd ((inf_iff_drop sep text).mpr ⟨i, hp⟩) h

/-- Confinement transfers from a text to any infix of it. -/
theorem confined_mono {sep s text : List Char} (hsep : sep ≠ [])
    (hc : confined sep text) (hinf : s <:+: text) : confined sep s := by
  obtain ⟨a, b, rfl⟩ := hinf
  have hc2 : confined sep (a ++ (s ++ b)) := by
    rw [List.append_assoc] at hc
    exact hc
  intro i hp
  have hi : i ≤ s.length := by
    by_contra hgt
    push_neg at hgt
    rw [List.drop_eq_nil_of_le (le_of_lt hgt)] at hp
    obtain ⟨t, ht⟩ := hp
    rcases List.append_eq_nil.mp ht with ⟨h1, -⟩
    exact hsep h1
  have hstep : (a ++ (s ++ b)).drop (a.length + i) = s.drop i ++ b := by
    rw [← List.drop_drop, List.drop_left, List.drop_append_of_le_length hi]
  have hp2 : sep <+: (a ++ (s ++ b)).drop (a.length + i) := by
    rw [hstep]
    obtain ⟨t, ht⟩ := hp
    exact ⟨t ++ b, by rw [← List.append_assoc, ht]⟩
  have := hc2 (a.length + i) hp2
  omega

/-- Key preservation step: every fragment produced at one recursion level
satisfies the confinement invariant for the remaining separators. -/
theorem sepConfined_step {seps : List (List Char)} {text : List Char}
    (hne : seps ≠ []) (hsub : ∀ s ∈ seps, s ∈ SEPARATORS)
    (hJ : sepConfined seps text) :
    ∀ s ∈ splitKeepSep (selectSep seps text).1 text,
      sepConfined (selectSep seps text).2 s := by
  have hnonempty : ∀ x ∈ SEPARATORS, x ≠ [] := by decide
  obtain ⟨pre, hpre, hocc⟩ := selectSep_spec text seps hne
    (fun x hx => hnonempty x (hsub x hx))
  generalize hselq : selectSep seps text = sel at hpre ⊢
  obtain ⟨k, ns⟩ := sel
  dsimp only at hpre ⊢
  have hkmem : k ∈ seps := by
    rw [hpre]
    exact List.mem_append_right _ (List.mem_cons_self _ _)
  have hknil : k ≠ [] := hnonempty _ (hsub _ hkmem)
  intro s hs σ hσ hσns
  by_cases hσk : σ = k
  · subst hσk
    rcases splitKeepSep_cases _ text s hs with hmem | ⟨p, hp, rfl⟩
    · exact confined_of_not_inf (splitGo_parts_free σ hknil text s hmem)
    · intro i hpre2
      by_contra hi
      push_neg at hi
      obtain ⟨j, hj⟩ : ∃ j, i = σ.length + j := ⟨i - σ.length, by omega⟩
      rw [hj, ← List.drop_drop, List.drop_left] at hpre2
      have hfree := splitGo_parts_free σ hknil text p (List.mem_of_mem_tail hp)
      exact hfree ((inf_iff_drop _ _).mpr ⟨j, hpre2⟩)
  · have hσnil : σ ≠ [] := hnonempty σ hσ
    have hconf : confined σ text := by
      by_cases hin : σ ∈ seps
      · have hσpre : σ ∈ pre := by
          rw [hpre] at hin
          rcases List.mem_append.mp hin with h | h
          · exact h
          · rcases List.mem_cons.mp h with h | h
            · exact absurd h hσk
            · exact absurd h hσns
        exact confined_of_not_inf (hocc σ hσpre)
      · exact hJ σ hσ hin
    have hsinf : s <:+: text := by
      rcases splitKeepSep_cases _ text s hs with hmem | ⟨p, hp, rfl⟩
      · exact splitGo_mem_inf _ hknil text s hmem
      · exact splitGo_tail_kept_inf _ hknil text p hp
    exact confined_mono hσnil hconf hsinf

/-- Length sums add over concatenation. -/
theorem sumLen_append (a b : List (List Char)) :
    sumLen (a ++ b) = sumLen a + sumLen b := by
  simp [sumLen]

/-- A singleton window sums to the length of its element. -/
theorem sumLen_single (x : List Char) : sumLen [x] = x.length := by
  simp [sumLen]

/-- A joined chunk is no longer than the sum of its window's lengths. -/
theorem joinDocs_length {cur : List (List Char)} {t : List Char}
    (h : joinDocs cur = some t) : t.length ≤ sumLen cur := by
  simp only [joinDocs] at h
  by_cases he : (pyStrip cur.flatten).isEmpty = true
  · rw [if_pos he] at h
    exact absurd h (by simp)
  · rw [if_neg he] at h
    obtain rfl := Option.some.inj h
    calc (pyStrip cur.flatten).length
        ≤ cur.flatten.length := pyStrip_length_le _
      _ = sumLen cur := by simp [sumLen, List.length_flatten]

/-- The overlap reduction keeps the running total equal to the window sum,
ends below the overlap, and ends fitting the next split or empty. -/
theorem popWhile_spec (len : Nat) :
    ∀ cur total, total = sumLen cur →
    (popWhile len cur total).2 = sumLen (popWhile len cur total).1 ∧
    (popWhile len cur total).2 ≤ CHUNK_OVERLAP ∧
    ((popWhile len cur total).2 + len ≤ CHUNK_SIZE ∨ (popWhile len cur total).2 = 0) := by
  intro cur
  induction cur with
  | nil =>
    intro total htot
    have h0 : total = 0 := by simpa [sumLen] using htot
    simp [popWhile, h0, sumLen, CHUNK_OVERLAP]
  | cons c rest ih =>
    intro total htot
    by_cases hcond : total > CHUNK_OVERLAP ∨ (total + len > CHUNK_SIZE ∧ total > 0)
    · simp only [popWhile, if_pos hcond]
      refine ih (total - c.length) ?_
      simp only [sumLen, List.map_cons, List.sum_cons] at htot
      simp only [sumLen]
      omega
    · simp only [popWhile, if_neg hcond]
      push_neg at hcond
      exact ⟨htot, hcond.1, by
        rcases Nat.lt_or_ge CHUNK_SIZE (total + len) with h | h
        · exact Or.inr (by omega)
        · exact Or.inl h⟩

/-- Every chunk emitted by the merge loop is within the chunk size,
provided all incoming splits are below it. -/
theorem mergeGo_bound :
    ∀ splits docs cur total,
    (∀ s ∈ splits, s.length < CHUNK_SIZE) →
    (∀ d ∈ docs, d.length ≤ CHUNK_SIZE) →
    total = sumLen cur → total ≤ CHUNK_SIZE →
    ∀ d ∈ mergeGo splits docs cur total, d.length ≤ CHUNK_SIZE := by
  intro splits
  induction splits with
  | nil =>
    intro docs cur total hs hd htot hle d hmem
    simp only [mergeGo] at hmem
    rcases List.mem_append.mp hmem with h | h
    · exact hd d h
    · cases hj : joinDocs cur with
      | none =>
        rw [hj] at h
        simp at h
      | some t =>
        rw [hj] at h
        simp only [Option.toList_some, List.mem_singleton] at h
        subst h
        calc d.length ≤ sumLen cur := joinDocs_length hj
          _ = total := htot.symm
          _ ≤ CHUNK_SIZE := hle
  | cons x rest ih =>
    intro docs cur total hs hd htot hle d hmem
    have hxlen : x.length < CHUNK_SIZE := hs x (by simp)
    have hsrest : ∀ s ∈ rest, s.length < CHUNK_SIZE :=
      fun s h => hs s (List.mem_cons_of_mem x h)
    simp only [mergeGo] at hmem
    by_cases hbig : total + x.length > CHUNK_SIZE
    · rw [if_pos hbig] at hmem
      by_cases hemp : cur.isEmpty
      · rw [if_pos hemp] at hmem
        have hcur : cur = [] := by simpa using hemp
        subst hcur
        have htot0 : total = 0 := by simpa [sumLen] using htot
        refine ih docs ([] ++ [x]) (total + x.length) hsrest hd ?_ (by omega) d hmem
        simp [sumLen]
        omega
      · rw [if_neg hemp] at hmem
        obtain ⟨hinv, hover, hfit⟩ := popWhile_spec x.length cur total htot
        refine ih _ _ _ hsrest ?_ ?_ ?_ d hmem
        · intro e he
          rcases List.mem_append.mp he with h | h
          · exact hd e h
          · cases hj : joinDocs cur with
            | none =>
              rw [hj] at h
              simp at h
            | some t =>
              rw [hj] at h
              simp only [Option.toList_some, List.mem_singleton] at h
              subst h
              calc e.length ≤ sumLen cur := joinDocs_length hj
                _ = total := htot.symm
                _ ≤ CHUNK_SIZE := hle
        · rw [sumLen_append, sumLen_single]
          omega
        · rcases hfit with h | h <;> omega
    · rw [if_neg hbig] at hmem
      refine ih docs (cur ++ [x]) (total + x.length) hsrest hd ?_ (by omega) d hmem
      rw [sumLen_append, sumLen_single]
      omega

/-- Every chunk produced by merging small splits is within the chunk
size. -/
theorem mergeSplits_bound (splits : List (List Char))
    (hs : ∀ s ∈ splits, s.length < CHUNK_SIZE) :
    ∀ d ∈ mergeSplits splits, d.length ≤ CHUNK_SIZE :=
  fun d hd => mergeGo_bound splits [] [] 0 hs (by simp) (by simp [sumLen])
    (Nat.zero_le _) d hd

/-- Per-level loop soundness: assuming the recursion and the oversized
fragments are sound, every chunk of the loop output is sound. -/
theorem processSplits_sound (recurse : List Char → List (List Char)) (noNew : Bool) :
    ∀ splits final good,
    (noNew = false → ∀ s ∈ splits, ∀ c ∈ recurse s, chunkOK c) →
    (noNew = true → ∀ s ∈ splits, sepConfined [] s) →
    (∀ c ∈ final, chunkOK c) →
    (∀ g ∈ good, g.length < CHUNK_SIZE) →
    ∀ c ∈ processSplits recurse noNew splits final good, chunkOK c := by
  intro splits
  induction splits with
  | nil =>
    intro final good hrec hQ hfin hgood c hc
    simp only [processSplits] at hc
    rcases List.mem_append.mp hc with h | h
    · exact hfin c h
    · by_cases hg : good.isEmpty
      · rw [if_pos hg] at h
        simp at h
      · rw [if_neg hg] at h
        exact Or.inl (mergeSplits_bound good hgood c h)
  | cons s rest ih =>
    intro final good hrec hQ hfin hgood c hc
    have hrec2 : noNew = false → ∀ u ∈ rest, ∀ e ∈ recurse u, chunkOK e :=
      fun h u hu => hrec h u (List.mem_cons_of_mem s hu)
    have hQ2 : noNew = true → ∀ u ∈ rest, sepConfined [] u :=
      fun h u hu => hQ h u (List.mem_cons_of_mem s hu)
    simp only [processSplits] at hc
    by_cases hlen : s.length < CHUNK_SIZE
    · rw [if_pos hlen] at hc
      refine ih final (good ++ [s]) hrec2 hQ2 hfin ?_ c hc
      intro g hg
      rcases List.mem_append.mp hg with h | h
      · exact hgood g h
      · rw [List.mem_singleton] at h
        subst h
        exact hlen
    · rw [if_neg hlen] at hc
      have hfin1 : ∀ e ∈ (if good.isEmpty then final else final ++ mergeSplits good),
          chunkOK e := by
        by_cases hg : good.isEmpty
        · rw [if_pos hg]
          exact hfin
        · rw [if_neg hg]
          intro e he
          rcases List.mem_append.mp he with h | h
          · exact hfin e h
          · exact Or.inl (mergeSplits_bound good hgood e h)
      have hfin2 : ∀ e ∈ (if noNew then
            (if good.isEmpty then final else final ++ mergeSplits good) ++ [s]
          else (if good.isEmpty then final else final ++ mergeSplits good) ++ recurse s),
          chunkOK e := by
        cases noNew with
        | true =>
          rw [if_pos rfl]
          intro e he
          rcases List.mem_append.mp he with h | h
          · exact hfin1 e h
          · rw [List.mem_singleton] at h
            subst h
            exact Or.inr (hQ rfl e (by simp))
        | false =>
          rw [if_neg (by simp)]
          intro e he
          rcases List.mem_append.mp he with h | h
          · exact hfin1 e h
          · exact hrec rfl s (by simp) e h
      exact ih _ [] hrec2 hQ2 hfin2 (by simp) c hc

/-- Soundness of the recursive splitter: with enough fuel, a separator
suffix of the priority list, and the confinement invariant, every produced
chunk is within the chunk size or has no internal separator occurrence. -/
theorem splitTextGo_sound :
    ∀ fuel seps text, seps ≠ [] → seps.length ≤ fuel →
    (∀ s ∈ seps, s ∈ SEPARATORS) → sepConfined seps text →
    ∀ c ∈ splitTextGo fuel seps text, chunkOK c := by
  intro fuel
  induction fuel with
  | zero =>
    intro seps text hne hlen
    cases seps with
    | nil => exact absurd rfl hne
    | cons a b => simp at hlen
  | succ fuel ih =>
    intro seps text hne hlen hsub hJ c hc
    simp only [splitTextGo] at hc
    have hstep := sepConfined_step hne hsub hJ
    have hnslen : (selectSep seps text).2.length + 1 ≤ seps.length := by
      have hnonempty : ∀ x ∈ SEPARATORS, x ≠ [] := by decide
      obtain ⟨pre, hpre, -⟩ := selectSep_spec text seps hne
        (fun x hx => hnonempty x (hsub x hx))
      nth_rewrite 2 [hpre]
      simp
    have hnssub : ∀ s ∈ (selectSep seps text).2, s ∈ SEPARATORS := by
      have hnonempty : ∀ x ∈ SEPARATORS, x ≠ [] := by decide
      obtain ⟨pre, hpre, -⟩ := selectSep_spec text seps hne
        (fun x hx => hnonempty x (hsub x hx))
      intro s hsmem
      refine hsub s ?_
      rw [hpre]
      exact List.mem_append_right _ (List.mem_cons_of_mem _ hsmem)
    refine processSplits_sound (splitTextGo fuel (selectSep seps text).2)
      (selectSep seps text).2.isEmpty (splitKeepSep (selectSep seps text).1 text) [] []
      ?_ ?_ (by simp) (by simp) c hc
    · intro hno s hsmem e he
      have hns : (selectSep seps text).2 ≠ [] := by
        intro h
        rw [h] at hno
        simp at hno
      exact ih (selectSep seps text).2 s hns (by omega) hnssub (hstep s hsmem) e he
    · intro hyes s hsmem
      have hns : (selectSep seps text).2 = [] := by simpa using hyes
      have := hstep s hsmem
      rwa [hns] at this

/-- Every chunk of split_text is within the chunk size or has no internal
separator occurrence. -/
theorem splitText_sound (text : List Char) :
    ∀ c ∈ splitText text, chunkOK c := by
  intro c hc
  refine splitTextGo_sound SEPARATORS.length SEPARATORS text (by decide) le_rfl
    (fun s hs => hs) ?_ c hc
  intro σ hσ hnot
  exact absurd hσ hnot

/-- The fallback loader issues exactly one GET per URL, in order. -/
theorem fallback_gets_eq (fetch : List Char → FetchOutcome) :
    ∀ urls, fallbackGets (fallback_bs4_loader fetch urls).2 = urls := by
  intro urls
  induction urls with
  | nil => rfl
  | cons u rest ih =>
    simp only [fallback_bs4_loader, fallbackGets, List.filterMap_append]
    rw [show (fallbackStep fetch u).2.filterMap
        (fun e => match e with | Event.fallbackGet u => some u | _ => none) = [u] from ?_]
    · simpa [fallbackGets] using ih
    · unfold fallbackStep
      cases fetch u with
      | raise => rfl
      | page r =>
        by_cases h : r.status ≠ 200
        · simp [h, List.filterMap]
        · by_cases h2 : pyStrip (List.intercalate [' '] r.paragraphs) = [] <;>
            simp [h, h2, List.filterMap]

/-- The fallback loader is the per-URL concatenation of its loop body:
documents. -/
theorem fallback_docs_eq (fetch : List Char → FetchOutcome) :
    ∀ urls, (fallback_bs4_loader fetch urls).1 =
      urls.flatMap (fun u => (fallbackStep fetch u).1) := by
  intro urls
  induction urls with
  | nil => rfl
  | cons u rest ih => simp [fallback_bs4_loader, ih]

/-- The fallback loader is the per-URL concatenation of its loop body:
events. -/
theorem fallback_evs_eq (fetch : List Char → FetchOutcome) :
    ∀ urls, (fallback_bs4_loader fetch urls).2 =
      urls.flatMap (fun u => (fallbackStep fetch u).2) := by
  intro urls
  induction urls with
  | nil => rfl
  | cons u rest ih => simp [fallback_bs4_loader, ih]

/-- Every event emitted by the fallback loader is a per-URL status event. -/
theorem fallback_evs_shape (fetch : List Char → FetchOutcome) :
    ∀ urls, ∀ e ∈ (fallback_bs4_loader fetch urls).2, isFallbackEvent e = true := by
  intro urls
  induction urls with
  | nil => intro e he; simp [fallback_bs4_loader] at he
  | cons u rest ih =>
    intro e he
    simp only [fallback_bs4_loader, List.mem_append] at he
    rcases he with he | he
    · cases hfu : fetch u with
      | raise =>
        simp [fallbackStep, hfu] at he
        rcases he with h1 | h1 <;> simp [h1, isFallbackEvent]
      | page r =>
        by_cases h : r.status ≠ 200
        · simp [fallbackStep, hfu, h] at he
          rcases he with h1 | h1 <;> simp [h1, isFallbackEvent]
        · by_cases h2 : pyStrip (List.intercalate [' '] r.paragraphs) = []
          · simp [fallbackStep, hfu, h, h2] at he
            rcases he with h1 | h1 <;> simp [h1, isFallbackEvent]
          · simp [fallbackStep, hfu, h, h2] at he
            rcases he with h1 | h1 <;> simp [h1, isFallbackEvent]
    · exact ih e he

/-- Every event of the primary stage is the primary warning. -/
theorem primary_evs_shape :
    ∀ p, ∀ e ∈ (primaryData p).2, e = Event.primaryWarning := by
  intro p e
  cases p <;> simp [primaryData]

/-- A fallback status event is not a chunking, embedding or save event. -/
theorem fallbackEvent_not_pipeline {e : Event} (h : isFallbackEvent e = true) :
    isSplitEvent e = false ∧ e ≠ Event.embedCall ∧ e ≠ Event.savedIndex := by
  cases e <;> simp_all [isFallbackEvent, isSplitEvent]

/-- C1: on a Process URLs action, if the primary structured loader returns
at least one document the fallback fetcher is never invoked; if it yields
zero documents (empty list or raised exception) the fallback fetcher is
invoked once for every URL in the list, in order. -/
theorem C1_fallback_selection :
    (∀ env urls fs docs, urls ≠ [] → env.primary = LoaderResult.ok docs → docs ≠ [] →
      fallbackGets (processUrls env urls fs).2 = []) ∧
    (∀ env urls fs, urls ≠ [] →
      (env.primary = LoaderResult.ok [] ∨ env.primary = LoaderResult.exc) →
      fallbackGets (processUrls env urls fs).2 = urls) := by
  constructor
  · intro env urls fs docs hu hp hd
    simp only [processUrls, if_neg hu, loadedData, loadEvents, primaryData, hp, if_neg hd]
    by_cases he : env.embedOk <;>
      simp [he, fallbackGets, List.filterMap_append, List.filterMap]
  · intro env urls fs hu hp
    have hz : (primaryData env.primary).1 = [] ∧ (primaryData env.primary).2.filterMap
        (fun e => match e with | Event.fallbackGet u => some u | _ => none) = [] := by
      rcases hp with h | h <;> simp [primaryData, h, List.filterMap]
    have hfb := fallback_gets_eq env.fetch urls
    simp only [processUrls, if_neg hu, loadedData, loadEvents, hz.1, if_pos rfl]
    by_cases hd : (fallback_bs4_loader env.fetch urls).1 = [] <;>
      [skip; by_cases he : env.embedOk] <;>
      simp_all [fallbackGets, List.filterMap_append, List.filterMap]

/-- Witness for C1 at concrete environments. -/
theorem C1_fallback_selection_witness :
    fallbackGets (processUrls envPrimaryOk [str "u"] none).2 = [] ∧
    fallbackGets (processUrls envFallback [str "u"] none).2 = [str "u"] :=
  ⟨C1_fallback_selection.1 envPrimaryOk [str "u"] none [docA] (by decide) rfl (by decide),
   C1_fallback_selection.2 envFallback [str "u"] none (by decide) (Or.inr rfl)⟩

/-- C2: when the primary loader yields zero documents and the fallback
loader also yields zero documents, the Process URLs action halts with the
no-content error before chunking: the persisted index is unchanged, no
chunk count is reported, no embedding call is made, and no index is
saved. -/
theorem C2_halt_when_no_content :
    ∀ env urls fs, urls ≠ [] →
    (env.primary = LoaderResult.ok [] ∨ env.primary = LoaderResult.exc) →
    (fallback_bs4_loader env.fetch urls).1 = [] →
    (processUrls env urls fs).1 = fs ∧
    Event.errorNoContent ∈ (processUrls env urls fs).2 ∧
    (processUrls env urls fs).2.filter isSplitEvent = [] ∧
    Event.embedCall ∉ (processUrls env urls fs).2 ∧
    Event.savedIndex ∉ (processUrls env urls fs).2 := by
  intro env urls fs hu hp hfb
  have hz : (primaryData env.primary).1 = [] := by
    rcases hp with h | h <;> simp [primaryData, h]
  have hshape := fallback_evs_shape env.fetch urls
  have hpe := primary_evs_shape env.primary
  refine ⟨?_, ?_, ?_, ?_, ?_⟩
  · simp [processUrls, loadedData, loadEvents, hu, hz, hfb]
  · simp [processUrls, loadedData, loadEvents, hu, hz, hfb]
  · simp only [processUrls, loadedData, loadEvents, hu, hz, hfb]
    rw [List.filter_eq_nil_iff]
    intro e he
    simp [hu, hz, hfb] at he
    rcases he with he | he | he | he | he | he
    · simp [he, isSplitEvent]
    · simp [hpe e he, isSplitEvent]
    · simp [he, isSplitEvent]
    · simpa [isSplitEvent] using (fallbackEvent_not_pipeline (hshape e he)).1
    · simp [he, isSplitEvent]
    · simp [he, isSplitEvent]
  · simp only [processUrls, loadedData, loadEvents, hu, hz, hfb]
    simp [hu, hz, hfb]
    constructor
    · intro h
      exact absurd (hpe _ h).symm (by simp)
    · intro h
      exact absurd (fallbackEvent_not_pipeline (hshape _ h)).2.1 (by simp)
  · simp only [processUrls, loadedData, loadEvents, hu, hz, hfb]
    simp [hu, hz, hfb]
    constructor
    · intro h
      exact absurd (hpe _ h).symm (by simp)
    · intro h
      exact absurd (fallbackEvent_not_pipeline (hshape _ h)).2.2 (by simp)

/-- Witness for C2 at a concrete environment where every fetch fails. -/
theorem C2_halt_when_no_content_witness :
    (processUrls envAllFail [str "u"] (some [IndexEntry.mk (str "c") (str "s")])).1 =
      some [IndexEntry.mk (str "c") (str "s")] ∧
    Event.errorNoContent ∈ (processUrls envAllFail [str "u"]
      (some [IndexEntry.mk (str "c") (str "s")])).2 ∧
    (processUrls envAllFail [str "u"]
      (some [IndexEntry.mk (str "c") (str "s")])).2.filter isSplitEvent = [] ∧
    Event.embedCall ∉ (processUrls envAllFail [str "u"]
      (some [IndexEntry.mk (str "c") (str "s")])).2 ∧
    Event.savedIndex ∉ (processUrls envAllFail [str "u"]
      (some [IndexEntry.mk (str "c") (str "s")])).2 :=
  C2_halt_when_no_content envAllFail [str "u"] (some [IndexEntry.mk (str "c") (str "s")])
    (by decide) (Or.inr rfl) rfl

/-- C3: a question submitted while no persisted index exists fails with the
human-readable index-not-found message, performs nothing else, and leaves
the (absent) index state unchanged. -/
theorem C3_index_not_found :
    ∀ chain query, query ≠ [] →
    handleQuery none chain query =
      (none, [QEvent.errorNotFound "FAISS index not found. Please process URLs first."]) := by
  intro chain query hq
  simp [handleQuery, hq]

/-- Witness for C3 at a concrete query. -/
theorem C3_index_not_found_witness :
    handleQuery none ChainOutcome.raise (str "What is X?") =
      (none, [QEvent.errorNotFound "FAISS index not found. Please process URLs first."]) :=
  C3_index_not_found ChainOutcome.raise (str "What is X?") (by decide)

/-- C4: every chunk produced by splitting a document with source S carries
source S: the chunks produced from a document appear with that document's
source, every chunk of the split output carries the source of one of the
input documents, and every entry of the built index retains that source
metadata. -/
theorem C4_chunk_source_metadata :
    ∀ docs : List Document,
      (∀ d ∈ docs, ∀ c ∈ splitText d.page_content,
        Document.mk c d.source ∈ splitDocuments docs) ∧
      (∀ chunk ∈ splitDocuments docs, chunk.source ∈ docs.map Document.source) ∧
      (∀ e ∈ buildIndex (splitDocuments docs), e.source ∈ docs.map Document.source) := by
  intro docs
  refine ⟨?_, ?_, ?_⟩
  · intro d hd c hc
    simp only [splitDocuments, List.mem_flatMap]
    exact ⟨d, hd, List.mem_map.mpr ⟨c, hc, rfl⟩⟩
  · intro chunk hchunk
    simp only [splitDocuments, List.mem_flatMap] at hchunk
    obtain ⟨d, hd, hm⟩ := hchunk
    obtain ⟨c, _, rfl⟩ := List.mem_map.mp hm
    exact List.mem_map.mpr ⟨d, hd, rfl⟩
  · intro e he
    simp only [buildIndex, List.mem_map] at he
    obtain ⟨chunk, hchunk, rfl⟩ := he
    simp only [splitDocuments, List.mem_flatMap] at hchunk
    obtain ⟨d, hd, hm⟩ := hchunk
    obtain ⟨c, _, rfl⟩ := List.mem_map.mp hm
    exact List.mem_map.mpr ⟨d, hd, rfl⟩

/-- Witness for C4 at a concrete document list. -/
theorem C4_chunk_source_metadata_witness :
    Document.mk (str "ab") (str "u") ∈ splitDocuments [docA] ∧
    (str "u") ∈ [docA].map Document.source ∧
    (str "u") ∈ [docA].map Document.source :=
  ⟨(C4_chunk_source_metadata [docA]).1 docA (by decide) (str "ab") (by decide),
   (C4_chunk_source_metadata [docA]).2.1 (Document.mk (str "ab") (str "u")) (by decide),
   (C4_chunk_source_metadata [docA]).2.2 (IndexEntry.mk (str "ab") (str "u")) (by decide)⟩

/-- C5: the chunker is configured with the separator priority list blank
line, newline, period, comma, chunk size 1000 and overlap 100; and for
every input text and every input document, no produced chunk exceeds 1000
characters except when no valid separator occurs inside the chunk: in an
oversized chunk every separator occurrence sits at the chunk's very start,
so no occurrence provides a split point within the budget. -/
theorem C5_chunker_bound :
    SEPARATORS = [str "\n\n", str "\n", str ".", str ","] ∧
    CHUNK_SIZE = 1000 ∧ CHUNK_OVERLAP = 100 ∧
    (∀ text, ∀ chunk ∈ splitText text,
      chunk.length ≤ CHUNK_SIZE ∨ ∀ sep ∈ SEPARATORS, confined sep chunk) ∧
    (∀ docs : List Document, ∀ chunk ∈ splitDocuments docs,
      chunk.page_content.length ≤ CHUNK_SIZE ∨
        ∀ sep ∈ SEPARATORS, confined sep chunk.page_content) := by
  have hmain : ∀ text, ∀ chunk ∈ splitText text,
      chunk.length ≤ CHUNK_SIZE ∨ ∀ sep ∈ SEPARATORS, confined sep chunk := by
    intro text chunk hc
    rcases splitText_sound text chunk hc with h | h
    · exact Or.inl h
    · exact Or.inr (fun sep hsep => h sep hsep (by simp))
  refine ⟨rfl, rfl, rfl, hmain, ?_⟩
  intro docs chunk hchunk
  simp only [splitDocuments, List.mem_flatMap] at hchunk
  obtain ⟨d, -, hm⟩ := hchunk
  obtain ⟨c, hc, rfl⟩ := List.mem_map.mp hm
  exact hmain d.page_content c hc

/-- Witness for C5 at a concrete text. -/
theorem C5_chunker_bound_witness :
    (str "ab") ∈ splitText (str "ab") ∧
    ((str "ab").length ≤ CHUNK_SIZE ∨ ∀ sep ∈ SEPARATORS, confined sep (str "ab")) :=
  ⟨by decide, C5_chunker_bound.2.2.2.1 (str "ab") (str "ab") (by decide)⟩

/-- C6: with one URL whose primary load raises and whose page holds two
paragraphs Hello. and World., the fallback yields exactly one document
whose content is the space-joined paragraph texts and whose source is the
URL, and the fallback is the stage that ran. -/
theorem C6_fallback_scenario :
    (fallback_bs4_loader fetchHello [str "https://example.com/a"]).1 =
      [Document.mk (str "Hello. World.") (str "https://example.com/a")] ∧
    loadedData envFallback [str "https://example.com/a"] =
      [Document.mk (str "Hello. World.") (str "https://example.com/a")] ∧
    fallbackGets (processUrls envFallback [str "https://example.com/a"] none).2 =
      [str "https://example.com/a"] := by
  exact ⟨by decide, by decide, by decide⟩

/-- C7: the fallback fetcher processes every URL independently: its
documents and events are the concatenation of the per-URL loop bodies, so
one URL's failure never aborts the batch, and every per-URL failure
(raised exception, non-success status, no extractable text) is reported
with an event naming that URL. -/
theorem C7_per_url_isolation :
    ∀ fetch urls,
      (fallback_bs4_loader fetch urls).1 =
        urls.flatMap (fun u => (fallbackStep fetch u).1) ∧
      (fallback_bs4_loader fetch urls).2 =
        urls.flatMap (fun u => (fallbackStep fetch u).2) ∧
      ∀ u ∈ urls,
        (fetch u = FetchOutcome.raise →
          Event.fallbackError u ∈ (fallback_bs4_loader fetch urls).2) ∧
        (∀ r, fetch u = FetchOutcome.page r → r.status ≠ 200 →
          Event.fallbackWarnStatus u r.status ∈ (fallback_bs4_loader fetch urls).2) ∧
        (∀ r, fetch u = FetchOutcome.page r → r.status = 200 →
          pyStrip (List.intercalate [' '] r.paragraphs) = [] →
          Event.fallbackWarnNoText u ∈ (fallback_bs4_loader fetch urls).2) := by
  intro fetch urls
  refine ⟨fallback_docs_eq fetch urls, fallback_evs_eq fetch urls, ?_⟩
  intro u hu
  refine ⟨?_, ?_, ?_⟩
  · intro hr
    rw [fallback_evs_eq]
    exact List.mem_flatMap.mpr ⟨u, hu, by simp [fallbackStep, hr]⟩
  · intro r hr hst
    rw [fallback_evs_eq]
    exact List.mem_flatMap.mpr ⟨u, hu, by simp [fallbackStep, hr, hst]⟩
  · intro r hr hst htxt
    rw [fallback_evs_eq]
    exact List.mem_flatMap.mpr ⟨u, hu, by simp [fallbackStep, hr, hst, htxt]⟩

/-- Witness for C7 at a concrete mixed environment. -/
theorem C7_per_url_isolation_witness :
    Event.fallbackError (str "bad") ∈
      (fallback_bs4_loader fetchMixed [str "bad", str "s404", str "blank", str "good"]).2 ∧
    Event.fallbackWarnStatus (str "s404") 404 ∈
      (fallback_bs4_loader fetchMixed [str "bad", str "s404", str "blank", str "good"]).2 ∧
    Event.fallbackWarnNoText (str "blank") ∈
      (fallback_bs4_loader fetchMixed [str "bad", str "s404", str "blank", str "good"]).2 :=
  ⟨((C7_per_url_isolation fetchMixed [str "bad", str "s404", str "blank", str "good"]).2.2
      (str "bad") (by decide)).1 (by decide),
   ((C7_per_url_isolation fetchMixed [str "bad", str "s404", str "blank", str "good"]).2.2
      (str "s404") (by decide)).2.1 (PageResponse.mk 404 [str "x"]) (by decide) (by decide),
   ((C7_per_url_isolation fetchMixed [str "bad", str "s404", str "blank", str "good"]).2.2
      (str "blank") (by decide)).2.2 (PageResponse.mk 200 [str "  "]) (by decide) rfl
      (by decide)⟩

/-- C8: the persisted index after a Process URLs action is either the
previous state unchanged or the complete newly built index, never a
partial one; when the embedding or index construction raises, nothing is
saved and the previous state is kept; and whenever a save is recorded the
persisted index is the complete new index. -/
theorem C8_no_partial_index :
    ∀ env urls fs,
      ((processUrls env urls fs).1 = fs ∨
        (processUrls env urls fs).1 =
          some (buildIndex (splitDocuments (loadedData env urls)))) ∧
      (env.embedOk = false →
        (processUrls env urls fs).1 = fs ∧
        Event.savedIndex ∉ (processUrls env urls fs).2) ∧
      (Event.savedIndex ∈ (processUrls env urls fs).2 →
        (processUrls env urls fs).1 =
          some (buildIndex (splitDocuments (loadedData env urls)))) := by
  intro env urls fs
  have hshape := fallback_evs_shape env.fetch urls
  have hpe := primary_evs_shape env.primary
  have hpw : Event.savedIndex ∉ (primaryData env.primary).2 := by
    intro h
    exact absurd (hpe _ h).symm (by simp)
  have hfw : Event.savedIndex ∉ (fallback_bs4_loader env.fetch urls).2 := by
    intro h
    exact absurd (fallbackEvent_not_pipeline (hshape _ h)).2.2 (by simp)
  by_cases hu : urls = []
  · refine ⟨Or.inl (by simp [processUrls, hu]), ?_, ?_⟩
    · intro _
      exact ⟨by simp [processUrls, hu], by simp [processUrls, hu]⟩
    · intro hmem
      simp [processUrls, hu] at hmem
  · by_cases hd : loadedData env urls = []
    · have hq : (primaryData env.primary).1 = [] := by
        by_contra hq
        rw [loadedData, if_neg hq] at hd
        exact hq hd
      have hfb : (fallback_bs4_loader env.fetch urls).1 = [] := by
        have h2 := hd
        rwa [loadedData, if_pos hq] at h2
      have hns : Event.savedIndex ∉ (processUrls env urls fs).2 := by
        simp only [processUrls, if_neg hu, hd, if_pos rfl]
        intro hmem
        simp [loadEvents, hq] at hmem
        rcases hmem with h | h
        · exact hpw h
        · exact hfw h
      refine ⟨Or.inl (by simp [processUrls, hu, hd]), ?_, ?_⟩
      · intro _
        exact ⟨by simp [processUrls, hu, hd], hns⟩
      · intro hmem
        exact absurd hmem hns
    · by_cases he : env.embedOk
      · refine ⟨Or.inr (by simp [processUrls, hu, hd, he]), ?_, ?_⟩
        · intro hfalse
          rw [he] at hfalse
          simp at hfalse
        · intro _
          simp [processUrls, hu, hd, he]
      · have hns : Event.savedIndex ∉ (processUrls env urls fs).2 := by
          simp only [processUrls, if_neg hu, if_neg hd, if_neg he]
          intro hmem
          simp [loadEvents] at hmem
          rcases hmem with h | h
          · exact hpw h
          · by_cases hq : (primaryData env.primary).1 = []
            · simp [hq] at h
              exact hfw h
            · simp [hq] at h
        refine ⟨Or.inl (by simp [processUrls, hu, hd, he]), ?_, ?_⟩
        · intro _
          exact ⟨by simp [processUrls, hu, hd, he], hns⟩
        · intro hmem
          exact absurd hmem hns

/-- Witness for C8 at a concrete environment whose embedding call fails. -/
theorem C8_no_partial_index_witness :
    Env.embedOk envEmbedFail = false ∧
    (processUrls envEmbedFail [str "u"] none).1 = none ∧
    Event.savedIndex ∉ (processUrls envEmbedFail [str "u"] none).2 :=
  ⟨rfl, ((C8_no_partial_index envEmbedFail [str "u"] none).2.1 rfl).1,
    ((C8_no_partial_index envEmbedFail [str "u"] none).2.1 rfl).2⟩

/-- C9: when every URL input field is blank after stripping, the handler
reports the enter-at-least-one-URL error, performs no fetching, chunking,
embedding or persistence, and leaves the persisted index unchanged;
moreover every collected URL is a stripped, nonempty input value. -/
theorem C9_blank_inputs :
    (∀ inputs env fs, (∀ s ∈ inputs, pyStrip s = []) →
      processUrls env (collectUrls inputs) fs = (fs, [Event.errorNoUrls])) ∧
    (∀ inputs, ∀ u ∈ collectUrls inputs, u ≠ [] ∧ u ∈ inputs.map pyStrip) := by
  constructor
  · intro inputs env fs hblank
    have hempty : collectUrls inputs = [] := by
      rw [collectUrls, List.filter_eq_nil_iff]
      intro a ha
      obtain ⟨s, hs, rfl⟩ := List.mem_map.mp ha
      simp [hblank s hs]
    rw [hempty]
    simp [processUrls]
  · intro inputs u hu
    rw [collectUrls, List.mem_filter] at hu
    refine ⟨?_, hu.1⟩
    have := hu.2
    simpa using this

/-- Witness for C9 at concrete whitespace-only inputs. -/
theorem C9_blank_inputs_witness :
    processUrls envAllFail (collectUrls [str "  ", str " ", str ""]) none =
      (none, [Event.errorNoUrls]) :=
  C9_blank_inputs.1 [str "  ", str " ", str ""] envAllFail none (by decide)

/-- C10: the question handler only reads the persisted index: whatever the
query and the chain outcome (success, missing index, or a raised chain
exception), the persisted index state after the query equals the state
before it. -/
theorem C10_query_no_write :
    ∀ fs chain query, (handleQuery fs chain query).1 = fs := by
  intro fs chain query
  by_cases hq : query = []
  · simp [handleQuery, hq]
  · cases fs with
    | none => simp [handleQuery, hq]
    | some idx => cases chain <;> simp [handleQuery, hq]

end FinanceBot
